import Mathlib

/-!
Verification development for the `spectrogram` repository's DSP crates.

The repository has two Rust source files:

* `web/crates/dsp_core/src/lib.rs` — the live crate: `fft_real`,
  `apply_window`, `magnitude_dbfs` and `stft_frame`, plus a test-only
  O(N²) oracle `reference_fft`.
* `packages/dsp/src/lib.rs` — a superseded naive `fft_real`.

The embedding models an IEEE f32 value as either a finite real number or
one of the special values +∞, −∞, NaN (`RF` below).  Finite f32
arithmetic is idealised as exact real arithmetic; the special-value
cases (Rust `f32::max` ignoring NaN, `log10` of zero being −∞, …) are
modelled explicitly where the source can reach them.  A Rust `panic!`
is modelled by `Option.none`.
-/

namespace Spectro

/-- Model of an IEEE f32 value: a finite real number, one of the two
infinities, or NaN. -/
inductive RF where
  | fin : ℝ → RF
  | posInf : RF
  | negInf : RF
  | nan : RF

/-- Rust `f32::is_finite`: true exactly on finite values. -/
def RF.isFinite : RF → Bool
  | RF.fin _ => true
  | _ => false

/-- The real number carried by a finite value (junk `0` on the special
values, which every use below guards against with `isFinite`). -/
noncomputable def RF.toReal : RF → ℝ
  | RF.fin x => x
  | _ => 0

/-- Rust `f32::max`: "returns the maximum of the two numbers, ignoring
NaN" — a NaN operand yields the other operand. -/
noncomputable def rfMax : RF → RF → RF
  | RF.nan, b => b
  | a, RF.nan => a
  | RF.posInf, _ => RF.posInf
  | _, RF.posInf => RF.posInf
  | RF.negInf, b => b
  | a, RF.negInf => a
  | RF.fin a, RF.fin b => RF.fin (max a b)

/-- IEEE f32 addition on the model (exact in the finite case). -/
noncomputable def rfAdd : RF → RF → RF
  | RF.nan, _ => RF.nan
  | _, RF.nan => RF.nan
  | RF.fin a, RF.fin b => RF.fin (a + b)
  | RF.posInf, RF.negInf => RF.nan
  | RF.negInf, RF.posInf => RF.nan
  | RF.posInf, _ => RF.posInf
  | _, RF.posInf => RF.posInf
  | RF.negInf, _ => RF.negInf
  | _, RF.negInf => RF.negInf

/-- IEEE f32 multiplication on the model (exact in the finite case;
`±∞ · 0 = NaN`, signs propagate otherwise). -/
noncomputable def rfMul : RF → RF → RF
  | RF.nan, _ => RF.nan
  | _, RF.nan => RF.nan
  | RF.fin a, RF.fin b => RF.fin (a * b)
  | RF.posInf, RF.posInf => RF.posInf
  | RF.posInf, RF.negInf => RF.negInf
  | RF.negInf, RF.posInf => RF.negInf
  | RF.negInf, RF.negInf => RF.posInf
  | RF.posInf, RF.fin b => if 0 < b then RF.posInf else if b < 0 then RF.negInf else RF.nan
  | RF.negInf, RF.fin b => if 0 < b then RF.negInf else if b < 0 then RF.posInf else RF.nan
  | RF.fin a, RF.posInf => if 0 < a then RF.posInf else if a < 0 then RF.negInf else RF.nan
  | RF.fin a, RF.negInf => if 0 < a then RF.negInf else if a < 0 then RF.posInf else RF.nan

/-- IEEE f32 `log10` applied to a (finite, exact) real argument:
positive → finite, zero → −∞, negative → NaN. -/
noncomputable def rfLog10 (x : ℝ) : RF :=
  if 0 < x then RF.fin (Real.logb 10 x) else if x = 0 then RF.negInf else RF.nan

/-- `const TWO_PI: f32 = 2.0 * PI` from `dsp_core`. -/
noncomputable def TWO_PI : ℝ := 2 * Real.pi

/-- `const EPSILON: f32 = 1e-12` from `dsp_core`. -/
noncomputable def EPSILON : ℝ := 1e-12

/-- `const DB_SCALE: f32 = 20.0` from `dsp_core`. -/
noncomputable def DB_SCALE : ℝ := 20

/-- `const HANN_A0: f32 = 0.5`. -/
noncomputable def HANN_A0 : ℝ := 0.5

/-- `const HANN_A1: f32 = 0.5`. -/
noncomputable def HANN_A1 : ℝ := 0.5

/-- `const HAMMING_ALPHA: f32 = 0.54`. -/
noncomputable def HAMMING_ALPHA : ℝ := 0.54

/-- `const HAMMING_BETA: f32 = 0.46`. -/
noncomputable def HAMMING_BETA : ℝ := 0.46

/-- `const BLACKMAN_A0: f32 = 0.42`. -/
noncomputable def BLACKMAN_A0 : ℝ := 0.42

/-- `const BLACKMAN_A1: f32 = 0.5`. -/
noncomputable def BLACKMAN_A1 : ℝ := 0.5

/-- `const BLACKMAN_A2: f32 = 0.08`. -/
noncomputable def BLACKMAN_A2 : ℝ := 0.08

/-- The angle `-TWO_PI * k as f32 * i as f32 / n as f32` used both by the
test oracle `reference_fft` and by the spec's DFT formula. -/
noncomputable def refAngle (n k i : ℕ) : ℝ := -TWO_PI * (k : ℝ) * (i : ℝ) / (n : ℝ)

/-- The `for c in buffer { output.push(c.re); output.push(c.im); }`
flattening: `n` (real, imaginary) pairs interleaved into a flat list. -/
noncomputable def interleave (f g : ℕ → ℝ) (n : ℕ) : List ℝ :=
  (List.range n).flatMap (fun k => [f k, g k])

/-- Modelled from the spec: the forward FFT executed by the external
`rustfft` plan (`fft.process`, not part of this repository) is modelled
by its contract from §4.2, the direct DFT definition
`X_k = Σ_{i=0}^{N-1} x_i · e^{-2πi·k·i/N}`. -/
noncomputable def dftPoint (x : List ℝ) (k : ℕ) : ℂ :=
  ∑ i ∈ Finset.range x.length,
    ((x.getD i 0 : ℝ) : ℂ) * Complex.exp (((refAngle x.length k i : ℝ) : ℂ) * Complex.I)

/-- `fft_real` from `dsp_core`: empty input short-circuits to an empty
output, non-finite input panics, otherwise the complex spectrum of the
block is flattened into interleaved `[re, im]` pairs. -/
noncomputable def fft_real (input : List RF) : Option (List RF) :=
  if input.length = 0 then some []
  else if input.any (fun v => ! v.isFinite) then none
  else
    some ((interleave (fun k => (dftPoint (input.map RF.toReal) k).re)
      (fun k => (dftPoint (input.map RF.toReal) k).im) input.length).map RF.fin)

/-- The test-only O(N²) oracle `reference_fft` from `dsp_core`'s test
module: bin `k` accumulates `Σ x_i · cos(angle)` and `Σ x_i · sin(angle)`
with `angle = -TWO_PI·k·i/n`, written to indices `2k` and `2k+1`. -/
noncomputable def reference_fft (x : List ℝ) : List ℝ :=
  interleave
    (fun k => ∑ i ∈ Finset.range x.length, x.getD i 0 * Real.cos (refAngle x.length k i))
    (fun k => ∑ i ∈ Finset.range x.length, x.getD i 0 * Real.sin (refAngle x.length k i))
    x.length

/-- `apply_window` from `dsp_core`: non-finite input panics; otherwise
the match on `window_type` multiplies element `i` by the family's
coefficient at phase `TWO_PI * i / denom`, `denom = (n as f32 - 1.0).max(1.0)`;
the default arm copies the input unchanged. -/
noncomputable def apply_window (input : List RF) (window_type : String) : Option (List RF) :=
  if input.any (fun v => ! v.isFinite) then none
  else
    let xs := input.map RF.toReal
    let denom : ℝ := max ((input.length : ℝ) - 1) 1
    if window_type = "hann" then
      some ((List.range input.length).map (fun i =>
        RF.fin (xs.getD i 0 * (HANN_A0 - HANN_A1 * Real.cos (TWO_PI * (i : ℝ) / denom)))))
    else if window_type = "hamming" then
      some ((List.range input.length).map (fun i =>
        RF.fin (xs.getD i 0 * (HAMMING_ALPHA - HAMMING_BETA * Real.cos (TWO_PI * (i : ℝ) / denom)))))
    else if window_type = "blackman" then
      some ((List.range input.length).map (fun i =>
        RF.fin (xs.getD i 0 * (BLACKMAN_A0 - BLACKMAN_A1 * Real.cos (TWO_PI * (i : ℝ) / denom)
          + BLACKMAN_A2 * Real.cos (2 * (TWO_PI * (i : ℝ) / denom))))))
    else
      some input

/-- `DB_SCALE * x` on the model: `20 · x` in f32 keeps the sign of an
infinity and propagates NaN. -/
noncomputable def dbScale : RF → RF
  | RF.fin x => RF.fin (DB_SCALE * x)
  | RF.posInf => RF.posInf
  | RF.negInf => RF.negInf
  | RF.nan => RF.nan

/-- One iteration of the dB loop of `magnitude_dbfs`:
`20.0 * ((re*re + im*im).sqrt() / safe_ref).log10()`.  `re`, `im` are
finite here (they come from the transform of a validated block), so the
magnitude is a finite nonnegative real; dividing it by an infinite
`safe_ref` gives ±0 in f32 and `log10(±0) = −∞`, and a NaN `safe_ref`
propagates.  (`safe_ref = reference.max(EPSILON)` is never NaN, −∞ or 0
in the source; those arms are still modelled by their f32 semantics.) -/
noncomputable def dbOf (re im : ℝ) (safeRef : RF) : RF :=
  match safeRef with
  | RF.fin r => dbScale (rfLog10 (Real.sqrt (re * re + im * im) / r))
  | RF.posInf => dbScale (rfLog10 0)
  | RF.negInf => dbScale (rfLog10 0)
  | RF.nan => RF.nan

/-- The `while i + 1 < spec.len()` loop of `magnitude_dbfs`: one dB value
per `[re, im]` pair of the interleaved spectrum. -/
noncomputable def magCore (spec : List ℝ) (safeRef : RF) : List RF :=
  (List.range (spec.length / 2)).map (fun k =>
    dbOf (spec.getD (2 * k) 0) (spec.getD (2 * k + 1) 0) safeRef)

/-- `magnitude_dbfs` from `dsp_core`: non-finite input panics; otherwise
the block is transformed by `fft_real` and each `[re, im]` pair is
converted to dB against `safe_ref = reference.max(EPSILON)`. -/
noncomputable def magnitude_dbfs (input : List RF) (reference : RF) : Option (List RF) :=
  if input.any (fun v => ! v.isFinite) then none
  else
    (fft_real input).map (fun spec =>
      magCore (spec.map RF.toReal) (rfMax reference (RF.fin EPSILON)))

/-- `stft_frame` from `dsp_core`: windows the block, then feeds the
result to `magnitude_dbfs` (a panic in either stage aborts the call). -/
noncomputable def stft_frame (input : List RF) (window_type : String) (reference : RF) :
    Option (List RF) :=
  (apply_window input window_type).bind (fun windowed => magnitude_dbfs windowed reference)

namespace DspPkg

/-- The inner accumulation of the superseded `fft_real` in
`packages/dsp`: `sum += input[n1] * angle.cos()` over `n1 in 0..n`,
with `angle = -2.0 * PI * k * n1 / n`, starting from `0.0`.  The input
elements are unvalidated f32 values, so the accumulation uses the
special-value-aware model operations. -/
noncomputable def binSum (input : List RF) (k : ℕ) : RF :=
  (List.range input.length).foldl
    (fun acc n1 =>
      rfAdd acc (rfMul (input.getD n1 RF.nan) (RF.fin (Real.cos (refAngle input.length k n1)))))
    (RF.fin 0)

/-- The superseded `fft_real` from `packages/dsp`: no finiteness check,
one cosine sum per output index `k in 0..n` (length `n`, not `2n`). -/
noncomputable def fft_real (input : List RF) : List RF :=
  (List.range input.length).map (fun k => binSum input k)

end DspPkg

/-! ### Helper lemmas -/

theorem getD_map_of_lt {α β : Type} (f : α → β) (l : List α) (i : ℕ) (d : β) (e : α)
    (hi : i < l.length) : (l.map f).getD i d = f (l.getD i e) := by
  rw [List.getD_eq_getElem l e hi, List.getD_eq_getElem _ d (by simpa using hi),
    List.getElem_map]

theorem getD_map_range {α : Type} (h : ℕ → α) (n i : ℕ) (d : α) (hi : i < n) :
    ((List.range n).map h).getD i d = h i := by
  rw [List.getD_eq_getElem?_getD, List.getElem?_map, List.getElem?_range hi]
  rfl

theorem interleave_succ (f g : ℕ → ℝ) (n : ℕ) :
    interleave f g (n + 1) = interleave f g n ++ [f n, g n] := by
  simp [interleave, List.range_succ]

theorem interleave_length (f g : ℕ → ℝ) (n : ℕ) : (interleave f g n).length = 2 * n := by
  induction n with
  | zero => rfl
  | succ m ih =>
    rw [interleave_succ, List.length_append, ih]
    simp
    omega

theorem interleave_getD_even (f g : ℕ → ℝ) (n k : ℕ) (d : ℝ) (h : k < n) :
    (interleave f g n).getD (2 * k) d = f k := by
  induction n with
  | zero => omega
  | succ m ih =>
    rw [interleave_succ]
    rcases Nat.lt_succ_iff_lt_or_eq.mp h with h2 | h2
    · rw [List.getD_eq_getElem?_getD, List.getElem?_append_left, ← List.getD_eq_getElem?_getD]
      · exact ih h2
      · rw [interleave_length]; omega
    · subst h2
      rw [List.getD_eq_getElem?_getD, List.getElem?_append_right (by rw [interleave_length])]
      rw [interleave_length]
      simp

theorem interleave_getD_odd (f g : ℕ → ℝ) (n k : ℕ) (d : ℝ) (h : k < n) :
    (interleave f g n).getD (2 * k + 1) d = g k := by
  induction n with
  | zero => omega
  | succ m ih =>
    rw [interleave_succ]
    rcases Nat.lt_succ_iff_lt_or_eq.mp h with h2 | h2
    · rw [List.getD_eq_getElem?_getD, List.getElem?_append_left, ← List.getD_eq_getElem?_getD]
      · exact ih h2
      · rw [interleave_length]; omega
    · subst h2
      rw [List.getD_eq_getElem?_getD,
        List.getElem?_append_right (by rw [interleave_length]; omega)]
      rw [interleave_length]
      have : 2 * k + 1 - 2 * k = 1 := by omega
      rw [this]
      simp

theorem RF.fin_toReal {v : RF} (h : v.isFinite = true) : RF.fin v.toReal = v := by
  cases v with
  | fin x => rfl
  | posInf => simp [RF.isFinite] at h
  | negInf => simp [RF.isFinite] at h
  | nan => simp [RF.isFinite] at h

theorem allFinite_getD {x : List RF} (hx : x.any (fun v => ! v.isFinite) = false)
    {i : ℕ} (hi : i < x.length) : (x.getD i RF.nan).isFinite = true := by
  have hmem : x.getD i RF.nan ∈ x := by
    rw [List.getD_eq_getElem x RF.nan hi]
    exact List.getElem_mem hi
  have h2 := List.any_eq_false.mp hx _ hmem
  simpa using h2

theorem dftPoint_re (x : List ℝ) (k : ℕ) :
    (dftPoint x k).re
      = ∑ i ∈ Finset.range x.length, x.getD i 0 * Real.cos (refAngle x.length k i) := by
  rw [dftPoint, Complex.re_sum]
  refine Finset.sum_congr rfl (fun i _ => ?_)
  rw [Complex.re_ofReal_mul, Complex.exp_ofReal_mul_I_re]

theorem dftPoint_im (x : List ℝ) (k : ℕ) :
    (dftPoint x k).im
      = ∑ i ∈ Finset.range x.length, x.getD i 0 * Real.sin (refAngle x.length k i) := by
  rw [dftPoint, Complex.im_sum]
  refine Finset.sum_congr rfl (fun i _ => ?_)
  rw [Complex.im_ofReal_mul, Complex.exp_ofReal_mul_I_im]

theorem fft_interleave_eq_reference (x : List ℝ) :
    interleave (fun k => (dftPoint x k).re) (fun k => (dftPoint x k).im) x.length
      = reference_fft x := by
  rw [reference_fft]
  congr 1
  · funext k
    exact dftPoint_re x k
  · funext k
    exact dftPoint_im x k

theorem foldl_congr_mem {α β : Type} (l : List α) (f g : β → α → β) (a : β)
    (h : ∀ b : β, ∀ x ∈ l, f b x = g b x) : l.foldl f a = l.foldl g a := by
  induction l generalizing a with
  | nil => rfl
  | cons x l ih =>
    simp only [List.foldl_cons]
    rw [h a x (List.mem_cons_self x l)]
    exact ih _ (fun b y hy => h b y (List.mem_cons_of_mem x hy))

theorem foldl_rfAdd_fin (f : ℕ → ℝ) :
    ∀ (l : List ℕ) (a : ℝ),
      l.foldl (fun acc i => rfAdd acc (RF.fin (f i))) (RF.fin a)
        = RF.fin (l.foldl (fun acc i => acc + f i) a)
  | [], _ => rfl
  | i :: l, a => by
    simp only [List.foldl_cons]
    rw [show rfAdd (RF.fin a) (RF.fin (f i)) = RF.fin (a + f i) from rfl]
    exact foldl_rfAdd_fin f l (a + f i)

theorem foldl_add_range (f : ℕ → ℝ) :
    ∀ (n : ℕ) (a : ℝ),
      (List.range n).foldl (fun acc i => acc + f i) a = a + ∑ i ∈ Finset.range n, f i := by
  intro n
  induction n with
  | zero => simp
  | succ m ih =>
    intro a
    rw [List.range_succ, List.foldl_append, ih, Finset.sum_range_succ]
    simp only [List.foldl_cons, List.foldl_nil]
    ring

theorem any_not_finite_map_fin_eq_false (l : List ℕ) (f : ℕ → ℝ) :
    ((l.map (fun i => RF.fin (f i))).any fun v => ! v.isFinite) = false := by
  rw [List.any_eq_false]
  intro v hv
  rcases List.mem_map.mp hv with ⟨i, _, rfl⟩
  simp [RF.isFinite]

/-- Normal form of `fft_real` on a validated block: the interleaved
spectrum agrees with the test oracle `reference_fft` (this equality is
Euler's formula applied bin by bin; both are exact on the real model). -/
theorem fft_real_eq_some {x : List RF} (hx : x.any (fun v => ! v.isFinite) = false) :
    fft_real x = some ((reference_fft (x.map RF.toReal)).map RF.fin) := by
  rw [fft_real]
  by_cases h0 : x.length = 0
  · rw [if_pos h0]
    have hnil : x = [] := List.length_eq_zero.mp h0
    subst hnil
    rfl
  · rw [if_neg h0]
    simp only [hx, Bool.false_eq_true, if_false]
    have hlen : (x.map RF.toReal).length = x.length := List.length_map x RF.toReal
    rw [← fft_interleave_eq_reference, hlen]

theorem apply_window_finite (x : List RF) (w : String)
    (hx : x.any (fun v => ! v.isFinite) = false) :
    ∃ l, apply_window x w = some l ∧ l.any (fun v => ! v.isFinite) = false := by
  rw [apply_window]
  simp only [hx, Bool.false_eq_true, if_false]
  by_cases h1 : w = "hann"
  · rw [if_pos h1]
    exact ⟨_, rfl, any_not_finite_map_fin_eq_false _ _⟩
  · rw [if_neg h1]
    by_cases h2 : w = "hamming"
    · rw [if_pos h2]
      exact ⟨_, rfl, any_not_finite_map_fin_eq_false _ _⟩
    · rw [if_neg h2]
      by_cases h3 : w = "blackman"
      · rw [if_pos h3]
        exact ⟨_, rfl, any_not_finite_map_fin_eq_false _ _⟩
      · rw [if_neg h3]
        exact ⟨x, rfl, hx⟩

/-- Normal form of `magnitude_dbfs` on a validated block. -/
theorem magnitude_dbfs_eq_some {x : List RF} (hx : x.any (fun v => ! v.isFinite) = false)
    (reference : RF) :
    magnitude_dbfs x reference
      = some (magCore (reference_fft (x.map RF.toReal)) (rfMax reference (RF.fin EPSILON))) := by
  rw [magnitude_dbfs]
  simp only [hx, Bool.false_eq_true, if_false]
  rw [fft_real_eq_some hx]
  rw [show ∀ a : List RF, ∀ f : List RF → List RF, (some a).map f = some (f a) from
    fun a f => rfl]
  congr 1
  rw [List.map_map]
  rw [show RF.toReal ∘ RF.fin = id from funext (fun r => rfl), List.map_id]

theorem magCore_reference_length (x : List ℝ) (safeRef : RF) :
    (magCore (reference_fft x) safeRef).length = x.length := by
  rw [magCore, List.length_map, List.length_range, reference_fft, interleave_length]
  omega

theorem magCore_reference_getD (x : List ℝ) (safeRef : RF) (k : ℕ) (hk : k < x.length) :
    (magCore (reference_fft x) safeRef).getD k RF.nan
      = dbOf ((dftPoint x k).re) ((dftPoint x k).im) safeRef := by
  rw [magCore]
  have hn : (reference_fft x).length / 2 = x.length := by
    rw [reference_fft, interleave_length]
    omega
  rw [hn, getD_map_range _ _ _ _ hk]
  rw [reference_fft, interleave_getD_even _ _ _ _ _ hk, interleave_getD_odd _ _ _ _ _ hk]
  rw [← dftPoint_re, ← dftPoint_im]

/-! ### Claim theorems -/

/-- C6: for every finite input of length `N`, `fft_real` returns a flat
sequence of exactly `2N` real scalars interleaved as
`[re₀, im₀, re₁, im₁, …]` representing the `N`-point forward DFT of the
zero-imaginary input, and for `N = 0` it returns the empty sequence,
which is not an error. -/
theorem fft_real_interleaved_layout (x : List RF)
    (hx : x.any (fun v => ! v.isFinite) = false) :
    (∃ l, fft_real x = some l ∧ l.length = 2 * x.length ∧
      ∀ k, k < x.length →
        l.getD (2 * k) RF.nan = RF.fin ((dftPoint (x.map RF.toReal) k).re) ∧
        l.getD (2 * k + 1) RF.nan = RF.fin ((dftPoint (x.map RF.toReal) k).im)) ∧
    fft_real [] = some [] := by
  have hlen : (x.map RF.toReal).length = x.length := List.length_map x RF.toReal
  refine ⟨⟨_, fft_real_eq_some hx, ?_, ?_⟩, rfl⟩
  · rw [List.length_map, reference_fft, interleave_length, hlen]
  · intro k hk
    have hk2 : 2 * k < (reference_fft (x.map RF.toReal)).length := by
      rw [reference_fft, interleave_length, hlen]
      omega
    have hk3 : 2 * k + 1 < (reference_fft (x.map RF.toReal)).length := by
      rw [reference_fft, interleave_length, hlen]
      omega
    rw [getD_map_of_lt RF.fin _ _ RF.nan 0 hk2, getD_map_of_lt RF.fin _ _ RF.nan 0 hk3]
    rw [reference_fft, interleave_getD_even _ _ _ _ _ (hlen ▸ hk),
      interleave_getD_odd _ _ _ _ _ (hlen ▸ hk)]
    rw [← dftPoint_re, ← dftPoint_im]
    exact ⟨rfl, rfl⟩

/-- Witness for C6 at the concrete block `[1, 2]`. -/
theorem fft_real_interleaved_layout_witness :
    (∃ l, fft_real [RF.fin 1, RF.fin 2] = some l ∧ l.length = 2 * 2 ∧
      ∀ k, k < 2 →
        l.getD (2 * k) RF.nan
          = RF.fin ((dftPoint ([RF.fin 1, RF.fin 2].map RF.toReal) k).re) ∧
        l.getD (2 * k + 1) RF.nan
          = RF.fin ((dftPoint ([RF.fin 1, RF.fin 2].map RF.toReal) k).im)) ∧
    fft_real [] = some [] :=
  fft_real_interleaved_layout [RF.fin 1, RF.fin 2] rfl

/-- C7: for every finite input and every family selector other than the
three recognized names, `apply_window` returns the input unchanged,
without raising any error. -/
theorem apply_window_unrecognized_identity (x : List RF) (w : String)
    (hx : x.any (fun v => ! v.isFinite) = false)
    (h1 : w ≠ "hann") (h2 : w ≠ "hamming") (h3 : w ≠ "blackman") :
    apply_window x w = some x := by
  rw [apply_window]
  simp only [hx, Bool.false_eq_true, if_false, if_neg h1, if_neg h2, if_neg h3]

/-- Witness for C7 at the selector `"none"` on the block `[3]`. -/
theorem apply_window_unrecognized_identity_witness :
    apply_window [RF.fin 3] ("none") = some [RF.fin 3] :=
  apply_window_unrecognized_identity [RF.fin 3] ("none") rfl (by decide) (by decide)
    (by decide)

/-- C5: on every finite block, `stft_frame` returns exactly the sequence
obtained by `apply_window` followed by `magnitude_dbfs`; it adds no
semantics beyond the composition. -/
theorem stft_frame_is_composition (x : List RF) (w : String) (reference : RF)
    (hx : x.any (fun v => ! v.isFinite) = false) :
    ∃ windowed mags, apply_window x w = some windowed ∧
      magnitude_dbfs windowed reference = some mags ∧
      stft_frame x w reference = some mags ∧
      stft_frame x w reference = magnitude_dbfs windowed reference := by
  rcases apply_window_finite x w hx with ⟨windowed, hw, hwf⟩
  refine ⟨windowed, _, hw, magnitude_dbfs_eq_some hwf reference, ?_, ?_⟩
  · rw [stft_frame, hw]
    exact magnitude_dbfs_eq_some hwf reference
  · rw [stft_frame, hw]
    rfl

/-- Witness for C5 at the block `[1]`, family `"hann"`, reference `1`. -/
theorem stft_frame_is_composition_witness :
    ∃ windowed mags, apply_window [RF.fin 1] ("hann") = some windowed ∧
      magnitude_dbfs windowed (RF.fin 1) = some mags ∧
      stft_frame [RF.fin 1] ("hann") (RF.fin 1) = some mags ∧
      stft_frame [RF.fin 1] ("hann") (RF.fin 1) = magnitude_dbfs windowed (RF.fin 1) :=
  stft_frame_is_composition [RF.fin 1] ("hann") (RF.fin 1) rfl

/-- C3: an input containing a NaN or infinite sample makes each of the
four operations fail with no partial result (the panic is modelled by
`none`), and a finite block makes each of them return a result for every
selector and reference, so sample finiteness is the sole error
condition. -/
theorem nonfinite_input_rejected (x : List RF) (w : String) (reference : RF) :
    ((x.any (fun v => ! v.isFinite)) = true →
      fft_real x = none ∧ apply_window x w = none ∧
      magnitude_dbfs x reference = none ∧ stft_frame x w reference = none) ∧
    ((x.any (fun v => ! v.isFinite)) = false →
      (fft_real x).isSome = true ∧ (apply_window x w).isSome = true ∧
      (magnitude_dbfs x reference).isSome = true ∧
      (stft_frame x w reference).isSome = true) := by
  constructor
  · intro hx
    have hne : x.length ≠ 0 := by
      rcases List.any_eq_true.mp hx with ⟨v, hv, _⟩
      intro h0
      rw [List.length_eq_zero.mp h0] at hv
      exact absurd hv (List.not_mem_nil v)
    have hfft : fft_real x = none := by
      rw [fft_real, if_neg hne]
      simp only [hx, if_true]
    have hwin : apply_window x w = none := by
      rw [apply_window]
      simp only [hx, if_true]
    have hmag : magnitude_dbfs x reference = none := by
      rw [magnitude_dbfs]
      simp only [hx, if_true]
    refine ⟨hfft, hwin, hmag, ?_⟩
    rw [stft_frame, hwin]
    rfl
  · intro hx
    rcases apply_window_finite x w hx with ⟨windowed, hw, hwf⟩
    refine ⟨?_, ?_, ?_, ?_⟩
    · rw [fft_real_eq_some hx]
      rfl
    · rw [hw]
      rfl
    · rw [magnitude_dbfs_eq_some hx reference]
      rfl
    · rw [stft_frame, hw]
      show (magnitude_dbfs windowed reference).isSome = true
      rw [magnitude_dbfs_eq_some hwf reference]
      rfl

/-- Witness for C3: rejection at the block `[NaN]` and acceptance at the
block `[1]`, both with family `"hann"` and reference `1`. -/
theorem nonfinite_input_rejected_witness :
    (fft_real [RF.nan] = none ∧ apply_window [RF.nan] ("hann") = none ∧
      magnitude_dbfs [RF.nan] (RF.fin 1) = none ∧
      stft_frame [RF.nan] ("hann") (RF.fin 1) = none) ∧
    ((fft_real [RF.fin 1]).isSome = true ∧
      (apply_window [RF.fin 1] ("hann")).isSome = true ∧
      (magnitude_dbfs [RF.fin 1] (RF.fin 1)).isSome = true ∧
      (stft_frame [RF.fin 1] ("hann") (RF.fin 1)).isSome = true) :=
  ⟨(nonfinite_input_rejected [RF.nan] ("hann") (RF.fin 1)).1 rfl,
    (nonfinite_input_rejected [RF.fin 1] ("hann") (RF.fin 1)).2 rfl⟩

/-- C2: for every finite input of length at most 64, every component of
the `fft_real` output is within `1e-3` absolute error of the
corresponding component of the direct O(N²) DFT definition — both in
the spec's complex-exponential form (`dftPoint`) and as the in-repo
test oracle (`reference_fft`); on the exact real model the error is
zero. -/
theorem fft_real_matches_direct_definition (x : List RF)
    (hx : x.any (fun v => ! v.isFinite) = false) (_hn : x.length ≤ 64) :
    ∃ l, fft_real x = some l ∧
      (∀ j, j < 2 * x.length →
        |(l.getD j RF.nan).toReal - (reference_fft (x.map RF.toReal)).getD j 0| ≤ 1e-3) ∧
      (∀ k, k < x.length →
        |(l.getD (2 * k) RF.nan).toReal - (dftPoint (x.map RF.toReal) k).re| ≤ 1e-3 ∧
        |(l.getD (2 * k + 1) RF.nan).toReal - (dftPoint (x.map RF.toReal) k).im| ≤ 1e-3) := by
  have hlen : (x.map RF.toReal).length = x.length := List.length_map x RF.toReal
  have hreflen : (reference_fft (x.map RF.toReal)).length = 2 * x.length := by
    rw [reference_fft, interleave_length, hlen]
  refine ⟨_, fft_real_eq_some hx, ?_, ?_⟩
  · intro j hj
    rw [getD_map_of_lt RF.fin _ _ RF.nan 0 (by rw [hreflen]; exact hj)]
    rw [show ∀ t : ℝ, (RF.fin t).toReal = t from fun t => rfl]
    simp only [sub_self, abs_zero]
    norm_num
  · intro k hk
    constructor
    · rw [getD_map_of_lt RF.fin _ _ RF.nan 0 (by rw [hreflen]; omega)]
      rw [show ∀ t : ℝ, (RF.fin t).toReal = t from fun t => rfl]
      rw [reference_fft, interleave_getD_even _ _ _ _ _ (hlen ▸ hk), ← dftPoint_re]
      simp only [sub_self, abs_zero]
      norm_num
    · rw [getD_map_of_lt RF.fin _ _ RF.nan 0 (by rw [hreflen]; omega)]
      rw [show ∀ t : ℝ, (RF.fin t).toReal = t from fun t => rfl]
      rw [reference_fft, interleave_getD_odd _ _ _ _ _ (hlen ▸ hk), ← dftPoint_im]
      simp only [sub_self, abs_zero]
      norm_num

/-- The end-to-end example block `[0,1,…,15]` from the spec. -/
noncomputable def x16 : List RF :=
  [RF.fin 0, RF.fin 1, RF.fin 2, RF.fin 3, RF.fin 4, RF.fin 5, RF.fin 6, RF.fin 7,
   RF.fin 8, RF.fin 9, RF.fin 10, RF.fin 11, RF.fin 12, RF.fin 13, RF.fin 14, RF.fin 15]

/-- Witness for C2 at the spec's end-to-end example block (`N = 16`). -/
theorem fft_real_matches_direct_definition_witness :
    ∃ l, fft_real x16 = some l ∧
      (∀ j, j < 2 * x16.length →
        |(l.getD j RF.nan).toReal - (reference_fft (x16.map RF.toReal)).getD j 0| ≤ 1e-3) ∧
      (∀ k, k < x16.length →
        |(l.getD (2 * k) RF.nan).toReal - (dftPoint (x16.map RF.toReal) k).re| ≤ 1e-3 ∧
        |(l.getD (2 * k + 1) RF.nan).toReal - (dftPoint (x16.map RF.toReal) k).im| ≤ 1e-3) :=
  fft_real_matches_direct_definition x16 rfl (by decide)

/-- C4: on every finite block, each named family scales element `i` by
its spec formula at phase `2π·i/D` with `D = max(N−1, 1) ≥ 1` (so `N = 0`
and `N = 1` divide by `1`, not `0`), and every produced element is
finite. -/
theorem apply_window_family_formulas (x : List RF)
    (hx : x.any (fun v => ! v.isFinite) = false) :
    ∃ lh lm lb,
      apply_window x ("hann") = some lh ∧
      apply_window x ("hamming") = some lm ∧
      apply_window x ("blackman") = some lb ∧
      lh.length = x.length ∧ lm.length = x.length ∧ lb.length = x.length ∧
      (1 : ℝ) ≤ max ((x.length : ℝ) - 1) 1 ∧
      ∀ i, i < x.length →
        lh.getD i RF.nan
          = RF.fin ((x.getD i RF.nan).toReal
              * (0.5 - 0.5 * Real.cos (2 * Real.pi * (i : ℝ) / max ((x.length : ℝ) - 1) 1))) ∧
        lm.getD i RF.nan
          = RF.fin ((x.getD i RF.nan).toReal
              * (0.54 - 0.46 * Real.cos (2 * Real.pi * (i : ℝ) / max ((x.length : ℝ) - 1) 1))) ∧
        lb.getD i RF.nan
          = RF.fin ((x.getD i RF.nan).toReal
              * (0.42 - 0.5 * Real.cos (2 * Real.pi * (i : ℝ) / max ((x.length : ℝ) - 1) 1)
                 + 0.08 * Real.cos (4 * Real.pi * (i : ℝ) / max ((x.length : ℝ) - 1) 1))) ∧
        (lh.getD i RF.nan).isFinite = true ∧
        (lm.getD i RF.nan).isFinite = true ∧
        (lb.getD i RF.nan).isFinite = true := by
  have hh : apply_window x ("hann")
      = some ((List.range x.length).map (fun i =>
          RF.fin ((x.map RF.toReal).getD i 0
            * (HANN_A0 - HANN_A1 * Real.cos (TWO_PI * (i : ℝ) / max ((x.length : ℝ) - 1) 1))))) := by
    rw [apply_window]
    simp only [hx, Bool.false_eq_true, if_false, if_true]
  have hm : apply_window x ("hamming")
      = some ((List.range x.length).map (fun i =>
          RF.fin ((x.map RF.toReal).getD i 0
            * (HAMMING_ALPHA
              - HAMMING_BETA * Real.cos (TWO_PI * (i : ℝ) / max ((x.length : ℝ) - 1) 1))))) := by
    rw [apply_window]
    simp only [hx, Bool.false_eq_true, if_false, if_true]
    rw [if_neg (by decide)]
  have hb : apply_window x ("blackman")
      = some ((List.range x.length).map (fun i =>
          RF.fin ((x.map RF.toReal).getD i 0
            * (BLACKMAN_A0 - BLACKMAN_A1 * Real.cos (TWO_PI * (i : ℝ) / max ((x.length : ℝ) - 1) 1)
              + BLACKMAN_A2
                * Real.cos (2 * (TWO_PI * (i : ℝ) / max ((x.length : ℝ) - 1) 1)))))) := by
    rw [apply_window]
    simp only [hx, Bool.false_eq_true, if_false, if_true]
    rw [if_neg (by decide), if_neg (by decide)]
  refine ⟨_, _, _, hh, hm, hb, by rw [List.length_map, List.length_range],
    by rw [List.length_map, List.length_range], by rw [List.length_map, List.length_range],
    le_max_right _ _, ?_⟩
  intro i hi
  have hxi : (x.map RF.toReal).getD i 0 = (x.getD i RF.nan).toReal :=
    getD_map_of_lt RF.toReal x i 0 RF.nan hi
  have hblack : 2 * (2 * Real.pi * (i : ℝ) / max ((x.length : ℝ) - 1) 1)
      = 4 * Real.pi * (i : ℝ) / max ((x.length : ℝ) - 1) 1 := by
    ring
  refine ⟨?_, ?_, ?_, ?_, ?_, ?_⟩ <;>
    rw [getD_map_range _ _ _ _ hi] <;>
    simp only [hxi, hblack, TWO_PI, HANN_A0, HANN_A1, HAMMING_ALPHA, HAMMING_BETA,
      BLACKMAN_A0, BLACKMAN_A1, BLACKMAN_A2, RF.isFinite]

/-- Witness for C4 at the one-sample block `[2]` (the `N = 1` boundary
case). -/
theorem apply_window_family_formulas_witness :
    ∃ lh lm lb,
      apply_window [RF.fin 2] ("hann") = some lh ∧
      apply_window [RF.fin 2] ("hamming") = some lm ∧
      apply_window [RF.fin 2] ("blackman") = some lb ∧
      lh.length = [RF.fin 2].length ∧ lm.length = [RF.fin 2].length ∧
      lb.length = [RF.fin 2].length ∧
      (1 : ℝ) ≤ max (([RF.fin 2].length : ℝ) - 1) 1 ∧
      ∀ i, i < [RF.fin 2].length →
        lh.getD i RF.nan
          = RF.fin (([RF.fin 2].getD i RF.nan).toReal
              * (0.5 - 0.5 * Real.cos (2 * Real.pi * (i : ℝ)
                  / max (([RF.fin 2].length : ℝ) - 1) 1))) ∧
        lm.getD i RF.nan
          = RF.fin (([RF.fin 2].getD i RF.nan).toReal
              * (0.54 - 0.46 * Real.cos (2 * Real.pi * (i : ℝ)
                  / max (([RF.fin 2].length : ℝ) - 1) 1))) ∧
        lb.getD i RF.nan
          = RF.fin (([RF.fin 2].getD i RF.nan).toReal
              * (0.42 - 0.5 * Real.cos (2 * Real.pi * (i : ℝ)
                  / max (([RF.fin 2].length : ℝ) - 1) 1)
                 + 0.08 * Real.cos (4 * Real.pi * (i : ℝ)
                  / max (([RF.fin 2].length : ℝ) - 1) 1))) ∧
        (lh.getD i RF.nan).isFinite = true ∧
        (lm.getD i RF.nan).isFinite = true ∧
        (lb.getD i RF.nan).isFinite = true :=
  apply_window_family_formulas [RF.fin 2] rfl

/-- C9: the reference argument of `magnitude_dbfs` is never checked for
finiteness: on a finite block a NaN reference produces exactly the
output of reference `0.0` (Rust `f32::max` drops the NaN operand, and
`max 0 EPSILON = EPSILON`), and the call still returns a result. -/
theorem magnitude_dbfs_nan_reference_clamped (x : List RF)
    (hx : x.any (fun v => ! v.isFinite) = false) :
    magnitude_dbfs x RF.nan = magnitude_dbfs x (RF.fin 0) ∧
    (magnitude_dbfs x RF.nan).isSome = true := by
  have h1 : rfMax RF.nan (RF.fin EPSILON) = RF.fin EPSILON := rfl
  have h2 : rfMax (RF.fin 0) (RF.fin EPSILON) = RF.fin EPSILON := by
    show RF.fin (max 0 EPSILON) = RF.fin EPSILON
    have hmax : max (0 : ℝ) EPSILON = EPSILON := max_eq_right (by rw [EPSILON]; norm_num)
    rw [hmax]
  constructor
  · rw [magnitude_dbfs_eq_some hx RF.nan, magnitude_dbfs_eq_some hx (RF.fin 0), h1, h2]
  · rw [magnitude_dbfs_eq_some hx RF.nan]
    rfl

/-- Witness for C9 at the block `[1]`. -/
theorem magnitude_dbfs_nan_reference_clamped_witness :
    magnitude_dbfs [RF.fin 1] RF.nan = magnitude_dbfs [RF.fin 1] (RF.fin 0) ∧
    (magnitude_dbfs [RF.fin 1] RF.nan).isSome = true :=
  magnitude_dbfs_nan_reference_clamped [RF.fin 1] rfl

/-- C10: the superseded `fft_real` of `packages/dsp` always returns
exactly `N` values (no interleaved imaginary parts) — also on inputs
containing NaN or infinity, since it performs no finiteness validation —
and on finite inputs value `k` is the plain cosine sum
`Σ x_i · cos(−2π·k·i/N)`. -/
theorem dsp_pkg_fft_real_cosine_sums (x : List RF) :
    (DspPkg.fft_real x).length = x.length ∧
    ((x.any (fun v => ! v.isFinite)) = false →
      ∀ k, k < x.length →
        (DspPkg.fft_real x).getD k RF.nan
          = RF.fin (∑ i ∈ Finset.range x.length,
              (x.getD i RF.nan).toReal * Real.cos (refAngle x.length k i))) := by
  constructor
  · rw [DspPkg.fft_real, List.length_map, List.length_range]
  · intro hx k hk
    rw [DspPkg.fft_real, getD_map_range _ _ _ _ hk, DspPkg.binSum]
    have hcong : (List.range x.length).foldl
        (fun acc n1 => rfAdd acc (rfMul (x.getD n1 RF.nan)
          (RF.fin (Real.cos (refAngle x.length k n1))))) (RF.fin 0)
        = (List.range x.length).foldl
        (fun acc n1 => rfAdd acc (RF.fin ((x.getD n1 RF.nan).toReal
          * Real.cos (refAngle x.length k n1)))) (RF.fin 0) := by
      apply foldl_congr_mem
      intro b n1 hn1
      have hlt : n1 < x.length := List.mem_range.mp hn1
      have hf := allFinite_getD hx hlt
      rw [← RF.fin_toReal hf]
      rfl
    rw [hcong, foldl_rfAdd_fin, foldl_add_range, zero_add]

/-- Witness for C10: the NaN block is processed (length preserved, no
rejection), and on the finite block `[1]` bin `0` is the cosine sum. -/
theorem dsp_pkg_fft_real_cosine_sums_witness :
    (DspPkg.fft_real [RF.nan]).length = 1 ∧
    (DspPkg.fft_real [RF.fin 1]).getD 0 RF.nan
      = RF.fin (∑ i ∈ Finset.range 1,
          ([RF.fin 1].getD i RF.nan).toReal * Real.cos (refAngle 1 0 i)) :=
  ⟨(dsp_pkg_fft_real_cosine_sums [RF.nan]).1,
    (dsp_pkg_fft_real_cosine_sums [RF.fin 1]).2 rfl 0 (by decide)⟩

theorem dbScale_rfLog10_ne_nan {t : ℝ} (ht : 0 ≤ t) : dbScale (rfLog10 t) ≠ RF.nan := by
  rw [rfLog10]
  rcases lt_or_eq_of_le ht with h | h
  · rw [if_pos h]
    intro hc
    exact RF.noConfusion hc
  · rw [if_neg (h ▸ lt_irrefl 0), if_pos h.symm]
    intro hc
    exact RF.noConfusion hc

/-- C1 counterexample: the all-zero one-sample block with reference `1`
produces `[−∞]`: the bin magnitude is not clamped to the amplitude
floor, and the output contains a non-finite value, contradicting the
claimed `max(|X_k|, amplitude_floor)` numerator and the claimed absence
of infinite outputs. -/
theorem magnitude_dbfs_zero_bin_counterexample :
    magnitude_dbfs [RF.fin 0] (RF.fin 1) = some [RF.negInf] ∧
    RF.negInf.isFinite = false := by
  refine ⟨?_, rfl⟩
  rw [@magnitude_dbfs_eq_some [RF.fin 0] rfl (RF.fin 1)]
  have hmax : rfMax (RF.fin 1) (RF.fin EPSILON) = RF.fin 1 := by
    show RF.fin (max 1 EPSILON) = RF.fin 1
    have h1 : max (1 : ℝ) EPSILON = 1 := max_eq_left (by rw [EPSILON]; norm_num)
    rw [h1]
  have hmap : [RF.fin 0].map RF.toReal = [(0 : ℝ)] := rfl
  rw [hmap, hmax]
  have href : reference_fft [(0 : ℝ)] = [0, 0] := by
    simp [reference_fft, interleave, Finset.sum_range_one, List.range_succ]
  rw [href]
  have hdb : dbOf 0 0 (RF.fin 1) = RF.negInf := by
    show dbScale (rfLog10 (Real.sqrt (0 * 0 + 0 * 0) / 1)) = RF.negInf
    have h0 : Real.sqrt (0 * 0 + 0 * 0) / 1 = 0 := by
      norm_num
    rw [h0, rfLog10, if_neg (lt_irrefl 0), if_pos rfl]
    rfl
  have hmc : magCore [(0 : ℝ), 0] (RF.fin 1) = [RF.negInf] := by
    rw [magCore]
    have hl : ([(0 : ℝ), 0].length) / 2 = 1 := by norm_num
    rw [hl]
    have hr1 : List.range 1 = [0] := by simp [List.range_succ]
    rw [hr1, List.map_cons, List.map_nil]
    have h00 : [(0 : ℝ), 0].getD (2 * 0) 0 = 0 := rfl
    have h01 : [(0 : ℝ), 0].getD (2 * 0 + 1) 0 = 0 := rfl
    rw [h00, h01, hdb]
  rw [hmc]

/-- C1 (amended): on a finite block with a real reference `r`, entry `k`
of `magnitude_dbfs` equals `20·log10(|X_k| / max(r, EPSILON))` — the
amplitude floor clamps only the reference, so `r ≤ 0` causes no division
by zero (the divisor is at least `EPSILON > 0`) and no entry is NaN, but
a bin with `|X_k| = 0` yields −∞ instead of a clamped finite value. -/
theorem magnitude_dbfs_reference_floor_only (x : List RF) (r : ℝ)
    (hx : x.any (fun v => ! v.isFinite) = false) :
    ∃ l, magnitude_dbfs x (RF.fin r) = some l ∧ l.length = x.length ∧
      (∀ k, k < x.length →
        l.getD k RF.nan
          = dbScale (rfLog10 (Real.sqrt
              ((dftPoint (x.map RF.toReal) k).re * (dftPoint (x.map RF.toReal) k).re
                + (dftPoint (x.map RF.toReal) k).im * (dftPoint (x.map RF.toReal) k).im)
              / max r EPSILON))) ∧
      (∀ k, k < x.length → l.getD k RF.nan ≠ RF.nan) ∧
      EPSILON ≤ max r EPSILON ∧ 0 < EPSILON := by
  have hrm : rfMax (RF.fin r) (RF.fin EPSILON) = RF.fin (max r EPSILON) := rfl
  have hlen : (x.map RF.toReal).length = x.length := List.length_map x RF.toReal
  have heps : (0 : ℝ) < EPSILON := by rw [EPSILON]; norm_num
  refine ⟨_, magnitude_dbfs_eq_some hx (RF.fin r), ?_, ?_, ?_,
    le_max_right r EPSILON, heps⟩
  · rw [magCore_reference_length, hlen]
  · intro k hk
    rw [hrm, magCore_reference_getD _ _ _ (hlen ▸ hk)]
    rfl
  · intro k hk
    rw [hrm, magCore_reference_getD _ _ _ (hlen ▸ hk)]
    show dbScale (rfLog10 _) ≠ RF.nan
    apply dbScale_rfLog10_ne_nan
    apply div_nonneg (Real.sqrt_nonneg _)
    exact le_trans (le_of_lt heps) (le_max_right r EPSILON)

/-- Witness for the amended C1 at the block `[1]` with reference `1`. -/
theorem magnitude_dbfs_reference_floor_only_witness :
    ∃ l, magnitude_dbfs [RF.fin 1] (RF.fin 1) = some l ∧ l.length = 1 ∧
      (∀ k, k < 1 →
        l.getD k RF.nan
          = dbScale (rfLog10 (Real.sqrt
              ((dftPoint ([RF.fin 1].map RF.toReal) k).re
                  * (dftPoint ([RF.fin 1].map RF.toReal) k).re
                + (dftPoint ([RF.fin 1].map RF.toReal) k).im
                  * (dftPoint ([RF.fin 1].map RF.toReal) k).im)
              / max 1 EPSILON))) ∧
      (∀ k, k < 1 → l.getD k RF.nan ≠ RF.nan) ∧
      EPSILON ≤ max 1 EPSILON ∧ 0 < EPSILON :=
  magnitude_dbfs_reference_floor_only [RF.fin 1] 1 rfl

end Spectro
